import Mathlib

/-!
Verification of the scrape→clean→dedupe pipeline of `scraper.py`.

The Python functions are shallowly embedded as Lean functions over
`String` / `List Char`.  Machine-independent caveats of the embedding:

* Python's `str.lower` and the regex classes `\s`, `\d` are modelled on
  their ASCII fragment (`Char.toLower`, the six ASCII whitespace
  characters, `Char.isDigit`); every string handled by the pipeline in
  the repository is ASCII in the relevant positions.
* Percent-decoding in `urllib.parse.unquote` is modelled byte-for-byte
  for ASCII escapes; multi-byte UTF-8 escape sequences are outside the
  model.
* `time.sleep` is a no-op for the values computed, and the network is
  modelled as an explicit `fetch` oracle returning `Except`.
-/

namespace Scraper

/-! ### Basic string helpers -/

/-- Substring test `needle.isPrefixOf hay`, spelled out so that proofs can
unfold it: does `hay` start with `needle`? -/
def startsWith : List Char → List Char → Bool
  | [], _ => true
  | _ :: _, [] => false
  | n :: ns, h :: hs => n = h && startsWith ns hs

/-- Python's `needle in hay` substring containment. -/
def containsSub (needle : List Char) : List Char → Bool
  | [] => startsWith needle []
  | c :: t => startsWith needle (c :: t) || containsSub needle t

/-- Python `str.lower` (ASCII fragment), applied characterwise. -/
def pyLower (l : List Char) : List Char := l.map Char.toLower

/-- Digits kept by the regex `[^\d]` deletion in `clean_price`. -/
def keepDigits (l : List Char) : List Char := l.filter Char.isDigit

/-- Python `int` on a non-empty string of decimal digits. -/
def parseDigits (l : List Char) : Nat :=
  l.foldl (fun n c => n * 10 + (c.toNat - 48)) 0

/-! ### `clean_price` (scraper.py lines 113–120)

```python
def clean_price(price_text):
    if not price_text:
        return None
    lowered = price_text.lower()
    if "prix sur demande" in lowered or "sur demande" in lowered:
        return None
    digits = re.sub(r"[^\d]", "", price_text)
    return int(digits) if digits else None
```
-/

def clean_price (price_text : String) : Option Nat :=
  if price_text = "" then none
  else
    let lowered := pyLower price_text.data
    if containsSub "prix sur demande".data lowered
        || containsSub "sur demande".data lowered then none
    else
      let digits := keepDigits price_text.data
      if digits = [] then none else some (parseDigits digits)

/-- Transcription of the specification's Price Parsing Rule, used as the
comparison point for claim C1: absent on an "on request" phrase in the
lower-cased text, otherwise the concatenated digits parsed as a number,
absent when no digits remain.  (No special case for the empty string.) -/
def spec_clean_price (price_text : String) : Option Nat :=
  let lowered := pyLower price_text.data
  if containsSub "prix sur demande".data lowered
      || containsSub "sur demande".data lowered then none
  else
    let digits := keepDigits price_text.data
    if digits = [] then none else some (parseDigits digits)

/-! ### `normalize_whitespace` (scraper.py lines 108–109)

```python
def normalize_whitespace(value):
    return re.sub(r"\s+", " ", value or "").strip()
```
-/

/-- The six characters matched by the regex class `\s` (ASCII). -/
def pySpace (c : Char) : Bool :=
  c = ' ' || c = '\t' || c = '\n' || c = '\r' || c = '\x0b' || c = '\x0c'

/-- One left-to-right pass of `re.sub(r"\s+", " ", ·)`: the flag records
whether the previous character was whitespace (so its run has already been
replaced by a single space). -/
def collapseGo : Bool → List Char → List Char
  | _, [] => []
  | prevSpace, c :: cs =>
    if pySpace c then
      if prevSpace then collapseGo true cs else ' ' :: collapseGo true cs
    else c :: collapseGo false cs

def collapseWs (l : List Char) : List Char := collapseGo false l

/-- Leading-whitespace removal, half of Python `str.strip`. -/
def lstrip (l : List Char) : List Char := l.dropWhile pySpace

/-- Trailing-whitespace removal, the other half of Python `str.strip`. -/
def rstrip (l : List Char) : List Char := (l.reverse.dropWhile pySpace).reverse

def pyStrip (l : List Char) : List Char := rstrip (lstrip l)

def normalize_whitespace (value : String) : String := ⟨pyStrip (collapseWs value.data)⟩

/-- Being in fully normalized form: no leading or trailing whitespace, every
whitespace character is a plain space, and no two adjacent whitespace
characters remain. -/
def headOk (l : List Char) : Bool :=
  match l.head? with
  | some c => !pySpace c
  | none => true

def lastOk (l : List Char) : Bool :=
  match l.getLast? with
  | some c => !pySpace c
  | none => true

def noDouble : List Char → Bool
  | a :: b :: rest => (!(pySpace a && pySpace b)) && noDouble (b :: rest)
  | _ => true

def spacesArePlain (l : List Char) : Bool := l.all fun c => !pySpace c || c = ' '

def isNormalized (l : List Char) : Bool :=
  headOk l && lastOk l && spacesArePlain l && noDouble l

/-! ### The record model

`clean_records` accepts loosely-typed dict rows.  A field of an input row
is either missing from the dict, or bound to `None`, or bound to a string;
`str(row.get(key, ""))` is the coercion the code applies. -/

inductive PyVal where
  | vNone : PyVal
  | vStr : String → PyVal
deriving DecidableEq

structure RawRecord where
  type : Option PyVal := none
  prix : Option PyVal := none
  adresse : Option PyVal := none
  image_lien : Option PyVal := none
  categorie : Option PyVal := none
deriving DecidableEq

/-- `str(row.get(key, ""))`: a missing key gives `""`, a `None` value is
stringified to `"None"`, a string value is returned unchanged. -/
def getStr : Option PyVal → String
  | none => ""
  | some .vNone => "None"
  | some (.vStr s) => s

/-- Python's `s or None` on a string: `""` is falsy. -/
def strOrNone (s : String) : Option String := if s = "" then none else some s

/-- Python `str.lower` (ASCII fragment) on a whole string. -/
def pyLowerStr (s : String) : String := ⟨pyLower s.data⟩

structure Cleaned where
  type : Option String
  prix_brut : Option String
  prix : Option Nat
  adresse : Option String
  image_lien : Option String
  categorie : Option String
deriving DecidableEq

/-! ### `clean_records` (scraper.py lines 124–140) -/

def cleanRow (row : RawRecord) : Cleaned :=
  let raw_price := normalize_whitespace (getStr row.prix)
  { type := strOrNone (pyLowerStr (normalize_whitespace (getStr row.type)))
    prix_brut := strOrNone raw_price
    prix := clean_price raw_price
    adresse := strOrNone (normalize_whitespace (getStr row.adresse))
    image_lien := strOrNone (normalize_whitespace (getStr row.image_lien))
    categorie := strOrNone (normalize_whitespace (getStr row.categorie)) }

def clean_records : List RawRecord → List Cleaned
  | [] => []
  | r :: rs => cleanRow r :: clean_records rs

/-! ### `dedupe_records` (scraper.py lines 144–159) -/

abbrev DedupKey :=
  Option String × Option (String ⊕ Nat) × Option String × Option String × Option String

/-- `row.get("prix_brut") or row.get("prix")` under Python truthiness:
`None` and `""` are falsy, so a present non-empty `prix_brut` wins, and
otherwise the `prix` entry (which may itself be `None`) is the result.
A string and an integer are never equal in Python, hence the sum type. -/
def keyPrice (pb : Option String) (p : Option Nat) : Option (String ⊕ Nat) :=
  match pb with
  | some s => if s = "" then p.map Sum.inr else some (Sum.inl s)
  | none => p.map Sum.inr

def dedupKey (r : Cleaned) : DedupKey :=
  (r.type, keyPrice r.prix_brut r.prix, r.adresse, r.image_lien, r.categorie)

/-- Membership of a key in a list of keys, as a boolean. -/
def memKey (k : DedupKey) : List DedupKey → Bool
  | [] => false
  | x :: xs => (x = k) || memKey k xs

/-- The loop of `dedupe_records`; the Python `seen` set is a list of keys
queried by membership. -/
def dedupeGo (seen : List DedupKey) : List Cleaned → List Cleaned
  | [] => []
  | r :: rs =>
    if memKey (dedupKey r) seen then dedupeGo seen rs
    else r :: dedupeGo (dedupKey r :: seen) rs

def dedupe_records (l : List Cleaned) : List Cleaned := dedupeGo [] l

/-- The five-field key exactly as the specification words it: the price
component is `price_raw` if present, otherwise `price`. -/
def specKey (r : Cleaned) : DedupKey :=
  (r.type,
   (match r.prix_brut with
    | some s => some (Sum.inl s)
    | none => r.prix.map Sum.inr),
   r.adresse, r.image_lien, r.categorie)

/-- Deduplication as the specification describes it: a record is kept
exactly when its key has not occurred in ANY earlier record (kept or not);
survivors keep their relative order. -/
def specDedupeGo (prevKeys : List DedupKey) : List Cleaned → List Cleaned
  | [] => []
  | r :: rs =>
    if memKey (specKey r) prevKeys then specDedupeGo (prevKeys ++ [specKey r]) rs
    else r :: specDedupeGo (prevKeys ++ [specKey r]) rs

def specDedupe (l : List Cleaned) : List Cleaned := specDedupeGo [] l

/-! ### `build_page_url` (scraper.py lines 45–52) and the urllib pieces it calls

```python
def build_page_url(base_url, page):
    if page <= 1:
        return base_url
    parsed = urlparse(base_url)
    query = dict(parse_qsl(parsed.query))
    query["page"] = str(page)
    new_query = urlencode(query)
    return urlunparse(parsed._replace(query=new_query))
```
-/

/-- Split at the first occurrence of `sep`; `none` when `sep` is absent. -/
def splitFirst (sep : Char) : List Char → Option (List Char × List Char)
  | [] => none
  | c :: cs =>
    if c = sep then some ([], cs)
    else (splitFirst sep cs).map fun p => (c :: p.1, p.2)

/-- Characters allowed in a URL scheme by CPython's `urlsplit`. -/
def schemeChar (c : Char) : Bool := c.isAlpha || c.isDigit || c = '+' || c = '-' || c = '.'

/-- A character that does not terminate the netloc section. -/
def netlocChar (c : Char) : Bool := !(c = '/' || c = '?' || c = '#')

structure UrlParts where
  scheme : List Char
  netloc : List Char
  path : List Char
  query : List Char
  fragment : List Char
deriving DecidableEq

/-- `urllib.parse.urlparse` for URLs whose `;params` component (which the
code never touches) stays folded into the path — exact for the
re-serialization below.  Follows CPython `urlsplit`: the scheme is split
off first, then a leading `//` opens the netloc section running up to the
first `/`, `?` or `#`, then the fragment is split at the first `#`, then
the query at the first `?`. -/
def urlparseF (url : List Char) : UrlParts :=
  let sr :=
    match splitFirst ':' url with
    | some (pre, post) =>
      if pre ≠ [] ∧ pre.all schemeChar then (pyLower pre, post) else ([], url)
    | none => ([], url)
  let nr :=
    match sr.2 with
    | '/' :: '/' :: r => (r.takeWhile netlocChar, r.dropWhile netlocChar)
    | _ => ([], sr.2)
  let rf :=
    match splitFirst '#' nr.2 with
    | some (a, b) => (a, b)
    | none => (nr.2, [])
  let pq :=
    match splitFirst '?' rf.1 with
    | some (a, b) => (a, b)
    | none => (rf.1, [])
  ⟨sr.1, nr.1, pq.1, pq.2, rf.2⟩

/-- `urllib.parse.urlunparse` (through `urlunsplit`). -/
def urlunparseF (p : UrlParts) : List Char :=
  let url := p.path
  let url :=
    if p.netloc ≠ [] ∨ (url ≠ [] ∧ url.take 2 = ['/', '/']) then
      '/' :: '/' :: (p.netloc ++ (if url ≠ [] ∧ url.head? ≠ some '/' then '/' :: url else url))
    else url
  let url := if p.scheme ≠ [] then p.scheme ++ ':' :: url else url
  let url := if p.query ≠ [] then url ++ '?' :: p.query else url
  if p.fragment ≠ [] then url ++ '#' :: p.fragment else url

/-- Split at every occurrence of `sep` (Python `str.split`). -/
def splitAll (sep : Char) : List Char → List (List Char)
  | [] => [[]]
  | c :: cs =>
    if c = sep then [] :: splitAll sep cs
    else
      match splitAll sep cs with
      | h :: t => (c :: h) :: t
      | [] => [[c]]

def hexVal? (c : Char) : Option Nat :=
  if '0' ≤ c ∧ c ≤ '9' then some (c.toNat - 48)
  else if 'A' ≤ c ∧ c ≤ 'F' then some (c.toNat - 55)
  else if 'a' ≤ c ∧ c ≤ 'f' then some (c.toNat - 87)
  else none

/-- `urllib.parse.unquote`, ASCII fragment: `%XX` with two hex digits
decodes to the character with that code, a `%` not followed by two hex
digits stays literal. -/
def unquote : List Char → List Char
  | '%' :: a :: b :: rest =>
    match hexVal? a, hexVal? b with
    | some hi, some lo => Char.ofNat (16 * hi + lo) :: unquote rest
    | _, _ => '%' :: unquote (a :: b :: rest)
  | c :: rest => c :: unquote rest
  | [] => []

def plusToSpace (l : List Char) : List Char := l.map fun c => if c = '+' then ' ' else c

def unquotePlus (l : List Char) : List Char := unquote (plusToSpace l)

/-- The per-chunk step of `parse_qsl`: skip an empty chunk, skip a chunk
carrying no `=`, skip a pair whose value is the empty string, otherwise
percent- and plus-decode name and value. -/
def qslChunk (seg : List Char) (acc : List (List Char × List Char)) :
    List (List Char × List Char) :=
  if seg = [] then acc
  else
    match splitFirst '=' seg with
    | none => acc
    | some (n, v) => if v = [] then acc else (unquotePlus n, unquotePlus v) :: acc

/-- `urllib.parse.parse_qsl` with default arguments: split on `&`, then
process the chunks in order. -/
def parse_qsl (qs : List Char) : List (List Char × List Char) :=
  (splitAll '&' qs).foldr qslChunk []

/-- Assignment into a Python dict viewed as an ordered association list:
overwrite in place when the key exists, append otherwise. -/
def dictUpdate (d : List (List Char × List Char)) (k v : List Char) :
    List (List Char × List Char) :=
  match d with
  | [] => [(k, v)]
  | (k', v') :: rest => if k' = k then (k, v) :: rest else (k', v') :: dictUpdate rest k v

/-- `dict(pairs)`: first-insertion order, last value wins. -/
def dictOf (ps : List (List Char × List Char)) : List (List Char × List Char) :=
  ps.foldl (fun d kv => dictUpdate d kv.1 kv.2) []

/-- The characters `urllib.parse.quote_plus` never escapes. -/
def alwaysSafe (c : Char) : Bool := c.isAlphanum || c = '_' || c = '.' || c = '-' || c = '~'

def hexDigitUpper (n : Nat) : Char :=
  if n < 10 then Char.ofNat (48 + n) else Char.ofNat (55 + n)

/-- `urllib.parse.quote_plus` with the empty safe-set, as `urlencode`
applies it; ASCII fragment. -/
def quotePlus (l : List Char) : List Char :=
  l.flatMap fun c =>
    if alwaysSafe c then [c]
    else if c = ' ' then ['+']
    else ['%', hexDigitUpper (c.toNat / 16 % 16), hexDigitUpper (c.toNat % 16)]

/-- `urllib.parse.urlencode` on an ordered mapping: quoted `k=v` chunks
joined with `&`. -/
def urlencodeF : List (List Char × List Char) → List Char
  | [] => []
  | [kv] => quotePlus kv.1 ++ '=' :: quotePlus kv.2
  | kv :: rest => quotePlus kv.1 ++ '=' :: quotePlus kv.2 ++ '&' :: urlencodeF rest

/-- The un-quoted `k=v`-and-`&` serialization of a parameter list; spec-side
companion of `urlencodeF`, with which it agrees on unreserved tokens. -/
def joinQuery : List (List Char × List Char) → List Char
  | [] => []
  | [kv] => kv.1 ++ '=' :: kv.2
  | kv :: rest => kv.1 ++ '=' :: kv.2 ++ '&' :: joinQuery rest

/-- A well-formed `scheme://host/path?k1=v1&...&kn=vn` base URL assembled
from its parts (no `?` when there are no parameters). -/
def mkBase (scheme host path : List Char) (params : List (List Char × List Char)) :
    List Char :=
  scheme ++ ':' :: '/' :: '/' :: host ++ path ++
    (if params = [] then [] else '?' :: joinQuery params)

/-- A non-empty token of unreserved characters (never percent-quoted). -/
def goodToken (l : List Char) : Bool := !l.isEmpty && l.all alwaysSafe

def build_page_url (base_url : String) (page : Int) : String :=
  if page ≤ 1 then base_url
  else
    let parsed := urlparseF base_url.data
    let query := dictOf (parse_qsl parsed.query)
    let query2 := dictUpdate query "page".data (toString page).data
    ⟨urlunparseF { parsed with query := urlencodeF query2 }⟩

/-! ### `scrape_category` (scraper.py lines 90–104)

The network (`fetch_html`, which raises on any non-success status or
connection failure) is modelled as an explicit oracle returning `Except`,
and the BeautifulSoup extraction `parse_listings` as an oracle returning
the records of one page; `time.sleep` does not affect the computed value.

```python
def scrape_category(base_url, item_type, pages=1, delay_seconds=0.6):
    pages = max(1, pages)
    results = []
    for page in range(1, pages + 1):
        url = build_page_url(base_url, page)
        html = fetch_html(url)
        results.extend(parse_listings(html, item_type))
        if page < pages:
            time.sleep(delay_seconds)
    return results
```
-/

def scrapeLoop {ε : Type} (fetch : String → Except ε String)
    (parse : String → List RawRecord) (base_url : String) :
    Nat → Nat → List RawRecord → Except ε (List RawRecord)
  | 0, _, acc => .ok acc
  | n + 1, page, acc =>
    match fetch (build_page_url base_url (page : Int)) with
    | .error e => .error e
    | .ok html => scrapeLoop fetch parse base_url n (page + 1) (acc ++ parse html)

def scrape_category {ε : Type} (fetch : String → Except ε String)
    (parse : String → List RawRecord) (base_url : String) (pages : Int) :
    Except ε (List RawRecord) :=
  scrapeLoop fetch parse base_url (max 1 pages).toNat 1 []

theorem clean_price_eq_spec (s : String) : clean_price s = spec_clean_price s := by
  by_cases h : s = ""
  · subst h; rfl
  · simp only [clean_price, spec_clean_price, if_neg h]

theorem mem_clean_records {r : Cleaned} :
    ∀ {raws : List RawRecord}, r ∈ clean_records raws → ∃ row, row ∈ raws ∧ r = cleanRow row := by
  intro raws h
  induction raws with
  | nil => simp [clean_records] at h
  | cons a as ih =>
    rw [clean_records, List.mem_cons] at h
    rcases h with h | h
    · exact ⟨a, List.mem_cons_self a as, h⟩
    · obtain ⟨row, hrow, hr⟩ := ih h
      exact ⟨row, List.mem_cons_of_mem a hrow, hr⟩

theorem memKey_iff (k : DedupKey) (l : List DedupKey) : memKey k l = true ↔ k ∈ l := by
  induction l with
  | nil => simp [memKey]
  | cons x xs ih =>
    simp only [memKey, Bool.or_eq_true, decide_eq_true_eq, ih, List.mem_cons]
    constructor
    · rintro (h | h)
      · exact Or.inl h.symm
      · exact Or.inr h
    · rintro (h | h)
      · exact Or.inl h.symm
      · exact Or.inr h

theorem memKey_eq_false {k : DedupKey} {l : List DedupKey} (h : ¬ k ∈ l) :
    memKey k l = false := by
  rcases hb : memKey k l with _ | _
  · rfl
  · exact absurd ((memKey_iff k l).mp hb) h

theorem dedupKey_eq_specKey {r : Cleaned} (h : r.prix_brut ≠ some "") :
    dedupKey r = specKey r := by
  unfold dedupKey specKey keyPrice
  rcases hpb : r.prix_brut with _ | s
  · rfl
  · have hs : s ≠ "" := fun e => h (by rw [hpb, e])
    simp [hs]

theorem dedupeGo_eq_specDedupeGo :
    ∀ (rest : List Cleaned) (seen prevKeys : List DedupKey),
      (∀ r ∈ rest, r.prix_brut ≠ some "") →
      (∀ k, k ∈ seen ↔ k ∈ prevKeys) →
      dedupeGo seen rest = specDedupeGo prevKeys rest := by
  intro rest
  induction rest with
  | nil => intro seen prev _ _; rfl
  | cons r rs ih =>
    intro seen prev h1 h2
    have hk : dedupKey r = specKey r := dedupKey_eq_specKey (h1 r (List.mem_cons_self r rs))
    have hrest : ∀ x ∈ rs, x.prix_brut ≠ some "" :=
      fun x hx => h1 x (List.mem_cons_of_mem r hx)
    unfold dedupeGo specDedupeGo
    rcases Classical.em (specKey r ∈ prev) with hm | hm
    · have hseen : memKey (dedupKey r) seen = true := by
        rw [hk]; exact (memKey_iff _ _).mpr ((h2 _).mpr hm)
      have hprev : memKey (specKey r) prev = true := (memKey_iff _ _).mpr hm
      rw [if_pos hseen, if_pos hprev]
      refine ih seen (prev ++ [specKey r]) hrest fun k => ?_
      rw [h2 k]
      simp only [List.mem_append, List.mem_singleton]
      constructor
      · exact fun h => Or.inl h
      · rintro (h | h)
        · exact h
        · exact h ▸ hm
    · have hseen : memKey (dedupKey r) seen = false := by
        rw [hk]; exact memKey_eq_false fun h => hm ((h2 _).mp h)
      have hprev : memKey (specKey r) prev = false := memKey_eq_false hm
      rw [if_neg (by simp [hseen]), if_neg (by simp [hprev])]
      refine congrArg (r :: ·) (ih _ _ hrest fun k => ?_)
      rw [hk]
      simp only [List.mem_cons, List.mem_append, List.mem_singleton, h2 k]
      tauto

theorem not_mem_seen_of_mem_dedupeGo :
    ∀ (l : List Cleaned) (seen : List DedupKey) (r : Cleaned),
      r ∈ dedupeGo seen l → memKey (dedupKey r) seen = false := by
  intro l
  induction l with
  | nil => intro seen r h; simp [dedupeGo] at h
  | cons x xs ih =>
    intro seen r h
    unfold dedupeGo at h
    by_cases hc : memKey (dedupKey x) seen = true
    · rw [if_pos hc] at h; exact ih seen r h
    · rw [if_neg hc] at h
      rcases List.mem_cons.mp h with h | h
      · subst h; exact Bool.not_eq_true _ ▸ Bool.of_not_eq_true hc
      · have := ih _ r h
        unfold memKey at this
        exact (Bool.or_eq_false_iff.mp this).2

theorem pairwise_keys_dedupeGo :
    ∀ (l : List Cleaned) (seen : List DedupKey),
      List.Pairwise (fun a b => dedupKey a ≠ dedupKey b) (dedupeGo seen l) := by
  intro l
  induction l with
  | nil => intro seen; exact List.Pairwise.nil
  | cons x xs ih =>
    intro seen
    unfold dedupeGo
    by_cases hc : memKey (dedupKey x) seen = true
    · rw [if_pos hc]; exact ih seen
    · rw [if_neg hc]
      refine List.Pairwise.cons (fun b hb => ?_) (ih _)
      have := not_mem_seen_of_mem_dedupeGo xs _ b hb
      unfold memKey at this
      have := (Bool.or_eq_false_iff.mp this).1
      simpa using this

theorem dedupeGo_eq_self :
    ∀ (l : List Cleaned) (seen : List DedupKey),
      (∀ r ∈ l, memKey (dedupKey r) seen = false) →
      List.Pairwise (fun a b => dedupKey a ≠ dedupKey b) l →
      dedupeGo seen l = l := by
  intro l
  induction l with
  | nil => intro seen _ _; rfl
  | cons x xs ih =>
    intro seen hfresh hpw
    unfold dedupeGo
    rw [if_neg (by simp [hfresh x (List.mem_cons_self x xs)])]
    refine congrArg (x :: ·) (ih _ (fun r hr => ?_) hpw.of_cons)
    unfold memKey
    rw [hfresh r (List.mem_cons_of_mem x hr), Bool.or_false, decide_eq_false_iff_not]
    exact (List.pairwise_cons.mp hpw).1 r hr

/-! Facts about whitespace normalization used for the field invariants. -/

theorem pySpace_cases {c : Char} (h : pySpace c = true) :
    c = ' ' ∨ c = '\t' ∨ c = '\n' ∨ c = '\r' ∨ c = '\x0b' ∨ c = '\x0c' := by
  simp [pySpace] at h
  tauto

theorem toLower_of_pySpace {c : Char} (h : pySpace c = true) : Char.toLower c = c := by
  rcases pySpace_cases h with rfl | rfl | rfl | rfl | rfl | rfl <;> decide

theorem char_ofNat_toNat {n : Nat} (h1 : 97 ≤ n) (h2 : n ≤ 122) :
    (Char.ofNat n).toNat = n := by
  have hv : n.isValidChar := Or.inl (by omega)
  simp only [Char.ofNat, dif_pos hv]
  simp [Char.ofNatAux, Char.toNat, UInt32.toNat, BitVec.toNat_ofNatLt]

theorem pySpace_false_of_ge {x : Char} (hx : 33 ≤ x.toNat) : pySpace x = false := by
  have h1 : x ≠ ' ' := fun e => by rw [e] at hx; exact absurd hx (by decide)
  have h2 : x ≠ '\t' := fun e => by rw [e] at hx; exact absurd hx (by decide)
  have h3 : x ≠ '\n' := fun e => by rw [e] at hx; exact absurd hx (by decide)
  have h4 : x ≠ '\r' := fun e => by rw [e] at hx; exact absurd hx (by decide)
  have h5 : x ≠ '\x0b' := fun e => by rw [e] at hx; exact absurd hx (by decide)
  have h6 : x ≠ '\x0c' := fun e => by rw [e] at hx; exact absurd hx (by decide)
  simp [pySpace, h1, h2, h3, h4, h5, h6]

theorem toLower_upper_range {c : Char} (h : 65 ≤ c.toNat ∧ c.toNat ≤ 90) :
    Char.toLower c = Char.ofNat (c.toNat + 32) := by
  simp only [Char.toLower]
  rw [if_pos ⟨h.1, h.2⟩]

theorem toLower_not_upper_range {c : Char} (h : ¬(65 ≤ c.toNat ∧ c.toNat ≤ 90)) :
    Char.toLower c = c := by
  simp only [Char.toLower]
  rw [if_neg fun hc => h ⟨hc.1, hc.2⟩]

theorem pySpace_toLower (c : Char) : pySpace (Char.toLower c) = pySpace c := by
  cases hb : pySpace c with
  | true => rw [toLower_of_pySpace hb]; exact hb
  | false =>
    by_cases h1 : 65 ≤ c.toNat ∧ c.toNat ≤ 90
    · rw [toLower_upper_range h1]
      exact pySpace_false_of_ge (by rw [char_ofNat_toNat (by omega) (by omega)]; omega)
    · rw [toLower_not_upper_range h1, hb]

theorem toLower_toLower (c : Char) : Char.toLower (Char.toLower c) = Char.toLower c := by
  by_cases h1 : 65 ≤ c.toNat ∧ c.toNat ≤ 90
  · rw [toLower_upper_range h1]
    have e2 : (Char.ofNat (c.toNat + 32)).toNat = c.toNat + 32 :=
      char_ofNat_toNat (by omega) (by omega)
    exact toLower_not_upper_range (by rw [e2]; omega)
  · rw [toLower_not_upper_range h1, toLower_not_upper_range h1]

theorem pyLower_pyLower (l : List Char) : pyLower (pyLower l) = pyLower l := by
  unfold pyLower
  rw [List.map_map]
  exact List.map_congr_left fun c _ => toLower_toLower c

theorem pyLowerStr_idem (s : String) : pyLowerStr (pyLowerStr s) = pyLowerStr s :=
  congrArg String.mk (pyLower_pyLower s.data)

theorem mem_collapseGo {x : Char} :
    ∀ (p : Bool) (l : List Char), x ∈ collapseGo p l → x = ' ' ∨ pySpace x = false := by
  intro p l
  induction l generalizing p with
  | nil => intro h; simp [collapseGo] at h
  | cons c cs ih =>
    intro h
    simp only [collapseGo] at h
    by_cases hc : pySpace c = true
    · rw [if_pos hc] at h
      cases p with
      | true => exact ih true h
      | false =>
        rcases List.mem_cons.mp h with h | h
        · exact Or.inl h
        · exact ih true h
    · rw [if_neg hc] at h
      rcases List.mem_cons.mp h with h | h
      · subst h; exact Or.inr (Bool.of_not_eq_true hc)
      · exact ih false h

theorem spacesArePlain_of_mem {l : List Char}
    (h : ∀ x ∈ l, x = ' ' ∨ pySpace x = false) : spacesArePlain l = true := by
  rw [spacesArePlain, List.all_eq_true]
  intro x hx
  rcases h x hx with rfl | hns
  · decide
  · simp [hns]

theorem head_collapseGo_true {l : List Char} {c : Char}
    (h : (collapseGo true l).head? = some c) : pySpace c = false := by
  induction l with
  | nil => simp [collapseGo] at h
  | cons x xs ih =>
    simp only [collapseGo] at h
    by_cases hx : pySpace x = true
    · rw [if_pos hx] at h; exact ih h
    · rw [if_neg hx] at h
      simp only [List.head?_cons, Option.some.injEq] at h
      subst h
      exact Bool.of_not_eq_true hx

theorem noDouble_cons_eq (a : Char) (l : List Char) :
    noDouble (a :: l)
      = ((match l.head? with
          | some b => !(pySpace a && pySpace b)
          | none => true) && noDouble l) := by
  cases l with
  | nil => rfl
  | cons b t => rfl

theorem noDouble_collapseGo (p : Bool) (l : List Char) : noDouble (collapseGo p l) = true := by
  induction l generalizing p with
  | nil => rfl
  | cons c cs ih =>
    simp only [collapseGo]
    by_cases hc : pySpace c = true
    · rw [if_pos hc]
      cases p with
      | true => exact ih true
      | false =>
        show noDouble (' ' :: collapseGo true cs) = true
        rw [noDouble_cons_eq]
        cases hh : (collapseGo true cs).head? with
        | none => simp [ih true]
        | some b => simp [head_collapseGo_true hh, ih true]
    · rw [if_neg hc]
      rw [noDouble_cons_eq]
      cases hh : (collapseGo false cs).head? with
      | none => simp [ih false]
      | some b => simp [Bool.of_not_eq_true hc, ih false]

theorem noDouble_eq_chain (l : List Char) :
    noDouble l = true
      ↔ List.Chain' (fun a b => ¬(pySpace a = true ∧ pySpace b = true)) l := by
  induction l with
  | nil => simp [noDouble]
  | cons a t ih =>
    cases t with
    | nil => simp [noDouble]
    | cons b t' =>
      rw [List.chain'_cons, ← ih]
      show (!(pySpace a && pySpace b) && noDouble (b :: t')) = true ↔ _
      constructor
      · intro h
        rcases (Bool.and_eq_true _ _).mp h with ⟨h1, h2⟩
        refine ⟨fun hab => ?_, h2⟩
        rw [hab.1, hab.2] at h1
        exact absurd h1 (by decide)
      · rintro ⟨h1, h2⟩
        refine (Bool.and_eq_true _ _).mpr ⟨?_, h2⟩
        cases hpa : pySpace a with
        | false => simp
        | true =>
          cases hpb : pySpace b with
          | false => simp [hpb]
          | true => exact absurd ⟨hpa, hpb⟩ h1

theorem noDouble_reverse (l : List Char) : noDouble l.reverse = noDouble l := by
  rw [Bool.eq_iff_iff, noDouble_eq_chain, noDouble_eq_chain, List.chain'_reverse]
  constructor
  · intro h; exact h.imp fun a b hab hba => hab ⟨hba.2, hba.1⟩
  · intro h; exact h.imp fun a b hab hba => hab ⟨hba.2, hba.1⟩

theorem noDouble_suffix {l1 l2 : List Char} (h : l2 <:+ l1) (hn : noDouble l1 = true) :
    noDouble l2 = true := by
  rw [noDouble_eq_chain] at hn ⊢
  exact hn.suffix h

theorem head_dropWhile_false {p : Char → Bool} :
    ∀ {l : List Char} {c : Char}, ((l.dropWhile p).head? = some c) → p c = false := by
  intro l
  induction l with
  | nil => intro c h; simp [List.dropWhile] at h
  | cons x xs ih =>
    intro c h
    rw [List.dropWhile_cons] at h
    by_cases hx : p x = true
    · rw [if_pos hx] at h; exact ih h
    · rw [if_neg hx] at h
      simp only [List.head?_cons, Option.some.injEq] at h
      subst h
      exact Bool.of_not_eq_true hx

theorem headOk_of_head? {l : List Char}
    (h : ∀ c, l.head? = some c → pySpace c = false) : headOk l = true := by
  unfold headOk
  cases hh : l.head? with
  | none => rfl
  | some c => simp [h c hh]

theorem lastOk_of_getLast? {l : List Char}
    (h : ∀ c, l.getLast? = some c → pySpace c = false) : lastOk l = true := by
  unfold lastOk
  cases hh : l.getLast? with
  | none => rfl
  | some c => simp [h c hh]

theorem isNormalized_pyStrip {m : List Char}
    (hplain : spacesArePlain m = true) (hnd : noDouble m = true) :
    isNormalized (pyStrip m) = true := by
  -- first strip the front
  have hsuf1 : lstrip m <:+ m := List.dropWhile_suffix pySpace
  have hplain1 : spacesArePlain (lstrip m) = true :=
    spacesArePlain_of_mem fun x hx => by
      have := (List.all_eq_true.mp hplain) x (hsuf1.subset hx)
      rcases Bool.or_eq_true _ _ |>.mp this with h | h
      · exact Or.inr (by simpa using h)
      · exact Or.inl (by simpa using h)
  have hnd1 : noDouble (lstrip m) = true := noDouble_suffix hsuf1 hnd
  have hhead1 : headOk (lstrip m) = true :=
    headOk_of_head? fun c hc => head_dropWhile_false hc
  -- then strip the back
  set d := (lstrip m).reverse.dropWhile pySpace with hd
  have hsuf2 : d <:+ (lstrip m).reverse := List.dropWhile_suffix pySpace
  have hrs : rstrip (lstrip m) = d.reverse := rfl
  have hplain2 : spacesArePlain d.reverse = true :=
    spacesArePlain_of_mem fun x hx => by
      have hx2 : x ∈ lstrip m :=
        List.mem_reverse.mp (hsuf2.subset (List.mem_reverse.mp hx))
      have := (List.all_eq_true.mp hplain1) x hx2
      rcases Bool.or_eq_true _ _ |>.mp this with h | h
      · exact Or.inr (by simpa using h)
      · exact Or.inl (by simpa using h)
  have hnd2 : noDouble d.reverse = true := by
    rw [noDouble_reverse]
    exact noDouble_suffix hsuf2 (by rw [noDouble_reverse]; exact hnd1)
  have hlast2 : lastOk d.reverse = true :=
    lastOk_of_getLast? fun c hc => by
      rw [List.getLast?_reverse] at hc
      exact head_dropWhile_false hc
  have hhead2 : headOk d.reverse = true := by
    obtain ⟨t, ht⟩ := hsuf2
    refine headOk_of_head? fun c hc => ?_
    have hlm : lstrip m = d.reverse ++ t.reverse := by
      have h2 := congrArg List.reverse ht
      rw [List.reverse_append, List.reverse_reverse] at h2
      exact h2.symm
    have hne : d.reverse ≠ [] := by intro e; rw [e] at hc; simp at hc
    have : (lstrip m).head? = some c := by
      rw [hlm, List.head?_append_of_ne_nil _ hne]
      exact hc
    have h1 := hhead1
    unfold headOk at h1
    rw [this] at h1
    simpa using h1
  show isNormalized (rstrip (lstrip m)) = true
  rw [hrs]
  unfold isNormalized
  rw [hhead2, hlast2, hplain2, hnd2]
  rfl

theorem isNormalized_normalize (s : String) :
    isNormalized (normalize_whitespace s).data = true := by
  show isNormalized (pyStrip (collapseWs s.data)) = true
  exact isNormalized_pyStrip
    (spacesArePlain_of_mem fun x hx => mem_collapseGo false s.data hx)
    (noDouble_collapseGo false s.data)

theorem noDouble_pyLower (l : List Char) : noDouble (pyLower l) = noDouble l := by
  induction l with
  | nil => rfl
  | cons a t ih =>
    cases t with
    | nil => rfl
    | cons b t' =>
      show (!(pySpace (Char.toLower a) && pySpace (Char.toLower b))
          && noDouble (pyLower (b :: t'))) = noDouble (a :: b :: t')
      rw [pySpace_toLower, pySpace_toLower, ih]
      rfl

theorem isNormalized_pyLower {l : List Char} (h : isNormalized l = true) :
    isNormalized (pyLower l) = true := by
  unfold isNormalized at h
  rcases Bool.and_eq_true _ _ |>.mp h with ⟨h123, hnd⟩
  rcases Bool.and_eq_true _ _ |>.mp h123 with ⟨h12, hplain⟩
  rcases Bool.and_eq_true _ _ |>.mp h12 with ⟨hhead, hlast⟩
  have hhead2 : headOk (pyLower l) = true := by
    refine headOk_of_head? fun c hc => ?_
    unfold pyLower at hc
    rw [List.head?_map] at hc
    cases hh : l.head? with
    | none => rw [hh] at hc; simp at hc
    | some c0 =>
      rw [hh] at hc
      simp only [Option.map_some', Option.some.injEq] at hc
      subst hc
      rw [pySpace_toLower]
      unfold headOk at hhead
      rw [hh] at hhead
      simpa using hhead
  have hlast2 : lastOk (pyLower l) = true := by
    refine lastOk_of_getLast? fun c hc => ?_
    unfold pyLower at hc
    rw [List.getLast?_map] at hc
    cases hh : l.getLast? with
    | none => rw [hh] at hc; simp at hc
    | some c0 =>
      rw [hh] at hc
      simp only [Option.map_some', Option.some.injEq] at hc
      subst hc
      rw [pySpace_toLower]
      unfold lastOk at hlast
      rw [hh] at hlast
      simpa using hlast
  have hplain2 : spacesArePlain (pyLower l) = true := by
    refine spacesArePlain_of_mem fun x hx => ?_
    unfold pyLower at hx
    obtain ⟨c0, hc0, rfl⟩ := List.mem_map.mp hx
    have := (List.all_eq_true.mp hplain) c0 hc0
    rcases Bool.or_eq_true _ _ |>.mp this with h | h
    · exact Or.inr (by rw [pySpace_toLower]; simpa using h)
    · have : c0 = ' ' := by simpa using h
      subst this
      exact Or.inl (by decide)
  unfold isNormalized
  rw [hhead2, hlast2, hplain2, noDouble_pyLower, hnd]
  rfl

theorem strOrNone_normalize {x : String} {s : String}
    (h : strOrNone (normalize_whitespace x) = some s) :
    s ≠ "" ∧ isNormalized s.data = true := by
  unfold strOrNone at h
  by_cases he : normalize_whitespace x = ""
  · rw [if_pos he] at h; exact absurd h (by simp)
  · rw [if_neg he] at h
    have hs : normalize_whitespace x = s := by simpa using h
    subst hs
    exact ⟨he, isNormalized_normalize x⟩

theorem strOrNone_lower_normalize {x : String} {s : String}
    (h : strOrNone (pyLowerStr (normalize_whitespace x)) = some s) :
    s ≠ "" ∧ isNormalized s.data = true ∧ pyLowerStr s = s := by
  unfold strOrNone at h
  by_cases he : pyLowerStr (normalize_whitespace x) = ""
  · rw [if_pos he] at h; exact absurd h (by simp)
  · rw [if_neg he] at h
    have hs : pyLowerStr (normalize_whitespace x) = s := by simpa using h
    subst hs
    exact ⟨he, isNormalized_pyLower (isNormalized_normalize x), pyLowerStr_idem _⟩

/-! Facts about the urllib embedding, used for claim C4. -/

theorem splitFirst_not_mem {sep : Char} :
    ∀ {l : List Char}, (∀ c ∈ l, c ≠ sep) → splitFirst sep l = none := by
  intro l
  induction l with
  | nil => intro _; rfl
  | cons c cs ih =>
    intro h
    simp only [splitFirst]
    rw [if_neg (h c (List.mem_cons_self c cs)), ih fun x hx => h x (List.mem_cons_of_mem c hx)]
    rfl

theorem splitFirst_append {sep : Char} :
    ∀ {a : List Char} (b : List Char), (∀ c ∈ a, c ≠ sep) →
      splitFirst sep (a ++ sep :: b) = some (a, b) := by
  intro a
  induction a with
  | nil =>
    intro b _
    simp only [List.nil_append, splitFirst]
    simp
  | cons c cs ih =>
    intro b h
    simp only [List.cons_append, splitFirst, List.append_eq]
    rw [if_neg (h c (List.mem_cons_self c cs)), ih b fun x hx => h x (List.mem_cons_of_mem c hx)]
    rfl

theorem takeWhile_append_stop {p : Char → Bool} :
    ∀ {a : List Char} {x : Char} (b : List Char), (∀ c ∈ a, p c = true) → p x = false →
      (a ++ x :: b).takeWhile p = a ∧ (a ++ x :: b).dropWhile p = x :: b := by
  intro a
  induction a with
  | nil =>
    intro x b _ hx
    simp [List.takeWhile_cons, List.dropWhile_cons, hx]
  | cons c cs ih =>
    intro x b h hx
    have hc : p c = true := h c (List.mem_cons_self c cs)
    have := ih b (fun y hy => h y (List.mem_cons_of_mem c hy)) hx
    simp [List.takeWhile_cons, List.dropWhile_cons, hc, this.1, this.2]

theorem takeWhile_all {p : Char → Bool} :
    ∀ {a : List Char}, (∀ c ∈ a, p c = true) →
      a.takeWhile p = a ∧ a.dropWhile p = [] := by
  intro a
  induction a with
  | nil => intro _; exact ⟨rfl, rfl⟩
  | cons c cs ih =>
    intro h
    have hc : p c = true := h c (List.mem_cons_self c cs)
    have := ih fun y hy => h y (List.mem_cons_of_mem c hy)
    simp [List.takeWhile_cons, List.dropWhile_cons, hc, this.1, this.2]

theorem splitAll_single {sep : Char} :
    ∀ {a : List Char}, (∀ c ∈ a, c ≠ sep) → splitAll sep a = [a] := by
  intro a
  induction a with
  | nil => intro _; rfl
  | cons c cs ih =>
    intro h
    simp only [splitAll]
    rw [if_neg (h c (List.mem_cons_self c cs)), ih fun x hx => h x (List.mem_cons_of_mem c hx)]

theorem splitAll_append {sep : Char} :
    ∀ {a : List Char} (b : List Char), (∀ c ∈ a, c ≠ sep) →
      splitAll sep (a ++ sep :: b) = a :: splitAll sep b := by
  intro a
  induction a with
  | nil =>
    intro b _
    simp only [List.nil_append, splitAll]
    simp
  | cons c cs ih =>
    intro b h
    simp only [List.cons_append, splitAll, List.append_eq]
    rw [if_neg (h c (List.mem_cons_self c cs)), ih b fun x hx => h x (List.mem_cons_of_mem c hx)]

theorem alwaysSafe_ne {c : Char} (h : alwaysSafe c = true) :
    c ≠ '%' ∧ c ≠ '+' ∧ c ≠ '&' ∧ c ≠ '=' ∧ c ≠ '#' ∧ c ≠ '?' ∧ c ≠ ' ' ∧ c ≠ ':' ∧ c ≠ '/' := by
  refine ⟨?_, ?_, ?_, ?_, ?_, ?_, ?_, ?_, ?_⟩ <;>
    (intro e; subst e; exact absurd h (by decide))

theorem unquote_id : ∀ {l : List Char}, (∀ c ∈ l, c ≠ '%') → unquote l = l := by
  intro l
  induction l with
  | nil => intro _; rfl
  | cons c cs ih =>
    intro h
    have hc : c ≠ '%' := h c (List.mem_cons_self c cs)
    have hrest : unquote cs = cs := ih fun x hx => h x (List.mem_cons_of_mem c hx)
    rw [unquote.eq_def]
    split
    next a b rest heq =>
      injection heq with h1 _
      exact absurd h1 hc
    next c2 rest x1 x2 heq =>
      injection heq with h1 h2
      subst h1
      subst h2
      rw [hrest]
    next x heq => exact absurd heq (by simp)

theorem plusToSpace_id {l : List Char} (h : ∀ c ∈ l, c ≠ '+') : plusToSpace l = l := by
  unfold plusToSpace
  rw [List.map_congr_left fun c hc => if_neg (h c hc)]
  exact List.map_id l

theorem unquotePlus_id {l : List Char} (h : ∀ c ∈ l, alwaysSafe c = true) :
    unquotePlus l = l := by
  unfold unquotePlus
  rw [plusToSpace_id fun c hc => (alwaysSafe_ne (h c hc)).2.1,
    unquote_id fun c hc => (alwaysSafe_ne (h c hc)).1]

theorem quotePlus_id : ∀ {l : List Char}, (∀ c ∈ l, alwaysSafe c = true) → quotePlus l = l := by
  intro l
  induction l with
  | nil => intro _; rfl
  | cons c cs ih =>
    intro h
    unfold quotePlus
    rw [List.flatMap_cons, if_pos (h c (List.mem_cons_self c cs))]
    show _ ++ quotePlus cs = _
    rw [ih fun x hx => h x (List.mem_cons_of_mem c hx)]
    rfl

theorem goodToken_parts {l : List Char} (h : goodToken l = true) :
    l ≠ [] ∧ ∀ c ∈ l, alwaysSafe c = true := by
  unfold goodToken at h
  rcases (Bool.and_eq_true _ _).mp h with ⟨h1, h2⟩
  exact ⟨by simpa [List.isEmpty_eq_false] using h1, List.all_eq_true.mp h2⟩

theorem append_eq_cons_ne_nil {a b : List Char} {x : Char} : a ++ x :: b ≠ [] := by
  intro h
  have := congrArg List.length h
  simp [List.length_append] at this

theorem qslChunk_good {k v : List Char} (hk : goodToken k = true) (hv : goodToken v = true)
    (acc : List (List Char × List Char)) :
    qslChunk (k ++ '=' :: v) acc = (k, v) :: acc := by
  obtain ⟨hk1, hk2⟩ := goodToken_parts hk
  obtain ⟨hv1, hv2⟩ := goodToken_parts hv
  unfold qslChunk
  rw [if_neg append_eq_cons_ne_nil,
    splitFirst_append v fun c hc => (alwaysSafe_ne (hk2 c hc)).2.2.2.1]
  simp only []
  rw [if_neg hv1, unquotePlus_id hk2, unquotePlus_id hv2]

theorem mem_seg {k v : List Char} {c : Char} (h : c ∈ k ++ '=' :: v) :
    c ∈ k ∨ c = '=' ∨ c ∈ v := by
  rcases List.mem_append.mp h with h | h
  · exact Or.inl h
  · rcases List.mem_cons.mp h with h | h
    · exact Or.inr (Or.inl h)
    · exact Or.inr (Or.inr h)

theorem seg_ne {k v : List Char} {c : Char} (hk : ∀ x ∈ k, alwaysSafe x = true)
    (hv : ∀ x ∈ v, alwaysSafe x = true) (h : c ∈ k ++ '=' :: v) :
    c ≠ '&' ∧ c ≠ '#' := by
  rcases mem_seg h with h | h | h
  · exact ⟨(alwaysSafe_ne (hk c h)).2.2.1, (alwaysSafe_ne (hk c h)).2.2.2.2.1⟩
  · subst h; exact ⟨by decide, by decide⟩
  · exact ⟨(alwaysSafe_ne (hv c h)).2.2.1, (alwaysSafe_ne (hv c h)).2.2.2.2.1⟩

theorem mem_joinQuery :
    ∀ {params : List (List Char × List Char)} {c : Char}, c ∈ joinQuery params →
      c = '=' ∨ c = '&' ∨ ∃ kv ∈ params, c ∈ kv.1 ∨ c ∈ kv.2 := by
  intro params
  induction params with
  | nil => intro c h; simp [joinQuery] at h
  | cons kv rest ih =>
    intro c h
    cases rest with
    | nil =>
      rcases mem_seg h with h | h | h
      · exact Or.inr (Or.inr ⟨kv, List.mem_cons_self kv [], Or.inl h⟩)
      · exact Or.inl h
      · exact Or.inr (Or.inr ⟨kv, List.mem_cons_self kv [], Or.inr h⟩)
    | cons kv2 rest2 =>
      have h2 : c ∈ (kv.1 ++ '=' :: kv.2) ++ '&' :: joinQuery (kv2 :: rest2) := h
      rcases List.mem_append.mp h2 with h | h
      · rcases mem_seg h with h | h | h
        · exact Or.inr (Or.inr ⟨kv, List.mem_cons_self kv _, Or.inl h⟩)
        · exact Or.inl h
        · exact Or.inr (Or.inr ⟨kv, List.mem_cons_self kv _, Or.inr h⟩)
      · rcases List.mem_cons.mp h with h | h
        · exact Or.inr (Or.inl h)
        · rcases ih h with h | h | ⟨kv3, hkv3, h⟩
          · exact Or.inl h
          · exact Or.inr (Or.inl h)
          · exact Or.inr (Or.inr ⟨kv3, List.mem_cons_of_mem kv hkv3, h⟩)

theorem joinQuery_no_amp_no_hash {params : List (List Char × List Char)}
    (hgood : ∀ kv ∈ params, goodToken kv.1 = true ∧ goodToken kv.2 = true) {c : Char}
    (h : c ∈ joinQuery params) : c ≠ '#' := by
  rcases mem_joinQuery h with rfl | rfl | ⟨kv, hkv, h⟩
  · decide
  · decide
  · rcases h with h | h
    · exact (alwaysSafe_ne ((goodToken_parts (hgood kv hkv).1).2 c h)).2.2.2.2.1
    · exact (alwaysSafe_ne ((goodToken_parts (hgood kv hkv).2).2 c h)).2.2.2.2.1

theorem parse_qsl_join :
    ∀ {params : List (List Char × List Char)},
      (∀ kv ∈ params, goodToken kv.1 = true ∧ goodToken kv.2 = true) →
      parse_qsl (joinQuery params) = params := by
  intro params
  induction params with
  | nil => intro _; rfl
  | cons kv rest ih =>
    intro h
    obtain ⟨hk, hv⟩ := h kv (List.mem_cons_self kv rest)
    have hknoamp : ∀ c ∈ kv.1 ++ '=' :: kv.2, c ≠ '&' :=
      fun c hc => (seg_ne (goodToken_parts hk).2 (goodToken_parts hv).2 hc).1
    cases rest with
    | nil =>
      show parse_qsl (kv.1 ++ '=' :: kv.2) = [kv]
      unfold parse_qsl
      rw [splitAll_single hknoamp]
      show qslChunk (kv.1 ++ '=' :: kv.2) [] = [kv]
      rw [qslChunk_good hk hv]
    | cons kv2 rest2 =>
      have hsplit : joinQuery (kv :: kv2 :: rest2)
          = (kv.1 ++ '=' :: kv.2) ++ '&' :: joinQuery (kv2 :: rest2) := rfl
      unfold parse_qsl
      rw [hsplit, splitAll_append _ hknoamp]
      show qslChunk (kv.1 ++ '=' :: kv.2) ((splitAll '&' (joinQuery (kv2 :: rest2))).foldr qslChunk []) = _
      have ih2 := ih fun x hx => h x (List.mem_cons_of_mem kv hx)
      unfold parse_qsl at ih2
      rw [ih2, qslChunk_good hk hv]

theorem dictUpdate_append {k v : List Char} :
    ∀ {d : List (List Char × List Char)}, (∀ kv ∈ d, kv.1 ≠ k) →
      dictUpdate d k v = d ++ [(k, v)] := by
  intro d
  induction d with
  | nil => intro _; rfl
  | cons kv rest ih =>
    intro h
    obtain ⟨k0, v0⟩ := kv
    simp only [dictUpdate]
    rw [if_neg (h (k0, v0) (List.mem_cons_self _ rest)),
      ih fun x hx => h x (List.mem_cons_of_mem _ hx)]
    rfl

theorem dictOf_foldl_acc :
    ∀ (ps acc : List (List Char × List Char)),
      (∀ kv ∈ acc, ∀ kv2 ∈ ps, kv.1 ≠ kv2.1) →
      ps.Pairwise (fun a b => a.1 ≠ b.1) →
      ps.foldl (fun d kv => dictUpdate d kv.1 kv.2) acc = acc ++ ps := by
  intro ps
  induction ps with
  | nil => intro acc _ _; simp
  | cons kv rest ih =>
    intro acc hacc hpw
    obtain ⟨k0, v0⟩ := kv
    simp only [List.foldl_cons]
    have hupd : dictUpdate acc k0 v0 = acc ++ [(k0, v0)] :=
      dictUpdate_append fun x hx => hacc x hx (k0, v0) (List.mem_cons_self _ rest)
    rw [hupd, ih (acc ++ [(k0, v0)])
      (fun x hx kv2 hkv2 => by
        rcases List.mem_append.mp hx with hx | hx
        · exact hacc x hx kv2 (List.mem_cons_of_mem _ hkv2)
        · have : x = (k0, v0) := by simpa using hx
          subst this
          exact (List.pairwise_cons.mp hpw).1 kv2 hkv2)
      (List.pairwise_cons.mp hpw).2]
    simp

theorem dictOf_self {ps : List (List Char × List Char)}
    (h : ps.Pairwise (fun a b => a.1 ≠ b.1)) : dictOf ps = ps := by
  unfold dictOf
  rw [dictOf_foldl_acc ps [] (by simp) h]
  rfl

theorem mem_dictUpdate {k v : List Char} :
    ∀ {d : List (List Char × List Char)} {kv}, kv ∈ dictUpdate d k v →
      kv ∈ d ∨ kv = (k, v) := by
  intro d
  induction d with
  | nil => intro kv h; exact Or.inr (by simpa [dictUpdate] using h)
  | cons x rest ih =>
    intro kv h
    obtain ⟨k0, v0⟩ := x
    simp only [dictUpdate] at h
    by_cases hkk : k0 = k
    · rw [if_pos hkk] at h
      rcases List.mem_cons.mp h with h | h
      · exact Or.inr h
      · exact Or.inl (List.mem_cons_of_mem _ h)
    · rw [if_neg hkk] at h
      rcases List.mem_cons.mp h with h | h
      · exact Or.inl (h ▸ List.mem_cons_self _ rest)
      · rcases ih h with h | h
        · exact Or.inl (List.mem_cons_of_mem _ h)
        · exact Or.inr h

theorem dictUpdate_ne_nil {d : List (List Char × List Char)} {k v : List Char} :
    dictUpdate d k v ≠ [] := by
  cases d with
  | nil => simp [dictUpdate]
  | cons x rest =>
    obtain ⟨k0, v0⟩ := x
    simp only [dictUpdate]
    split_ifs <;> simp

theorem urlencodeF_eq_joinQuery :
    ∀ {d : List (List Char × List Char)},
      (∀ kv ∈ d, goodToken kv.1 = true ∧ goodToken kv.2 = true) →
      urlencodeF d = joinQuery d := by
  intro d
  induction d with
  | nil => intro _; rfl
  | cons kv rest ih =>
    intro h
    obtain ⟨hk, hv⟩ := h kv (List.mem_cons_self kv rest)
    cases rest with
    | nil =>
      show quotePlus kv.1 ++ '=' :: quotePlus kv.2 = kv.1 ++ '=' :: kv.2
      rw [quotePlus_id (goodToken_parts hk).2, quotePlus_id (goodToken_parts hv).2]
    | cons kv2 rest2 =>
      show (quotePlus kv.1 ++ '=' :: quotePlus kv.2) ++ '&' :: urlencodeF (kv2 :: rest2)
          = (kv.1 ++ '=' :: kv.2) ++ '&' :: joinQuery (kv2 :: rest2)
      rw [quotePlus_id (goodToken_parts hk).2, quotePlus_id (goodToken_parts hv).2,
        ih fun x hx => h x (List.mem_cons_of_mem kv hx)]

theorem joinQuery_cons_ne_nil {kv : List Char × List Char}
    {rest : List (List Char × List Char)} : joinQuery (kv :: rest) ≠ [] := by
  cases rest with
  | nil => exact append_eq_cons_ne_nil
  | cons kv2 rest2 => exact append_eq_cons_ne_nil

theorem digitChar_isDigit {m : Nat} (h : m < 10) : (Nat.digitChar m).isDigit = true := by
  interval_cases m <;> decide

theorem toDigitsCore_append :
    ∀ (fuel n : Nat) (acc : List Char), ∃ pre, Nat.toDigitsCore 10 fuel n acc = pre ++ acc ∧
      ∀ c ∈ pre, c.isDigit = true := by
  intro fuel
  induction fuel with
  | zero => intro n acc; exact ⟨[], rfl, by simp⟩
  | succ m ih =>
    intro n acc
    have hdig : (Nat.digitChar (n % 10)).isDigit = true :=
      digitChar_isDigit (Nat.mod_lt n (by norm_num))
    by_cases h0 : n / 10 = 0
    · refine ⟨[Nat.digitChar (n % 10)], by simp [Nat.toDigitsCore, h0], ?_⟩
      intro c hc
      have := List.mem_singleton.mp hc
      subst this
      exact hdig
    · obtain ⟨pre, hpre, hdigs⟩ := ih (n / 10) (Nat.digitChar (n % 10) :: acc)
      refine ⟨pre ++ [Nat.digitChar (n % 10)], ?_, ?_⟩
      · simp [Nat.toDigitsCore, h0, hpre]
      · intro c hc
        rcases List.mem_append.mp hc with h | h
        · exact hdigs c h
        · have := List.mem_singleton.mp h
          subst this
          exact hdig

theorem toDigitsCore_ne_nil (n : Nat) : Nat.toDigitsCore 10 (n + 1) n [] ≠ [] := by
  by_cases h0 : n / 10 = 0
  · simp [Nat.toDigitsCore, h0]
  · obtain ⟨pre, hpre, _⟩ := toDigitsCore_append n (n / 10) [Nat.digitChar (n % 10)]
    have hstep : Nat.toDigitsCore 10 (n + 1) n []
        = Nat.toDigitsCore 10 n (n / 10) [Nat.digitChar (n % 10)] := by
      simp [Nat.toDigitsCore, h0]
    rw [hstep, hpre]
    exact append_eq_cons_ne_nil

theorem alwaysSafe_of_isDigit {c : Char} (h : c.isDigit = true) : alwaysSafe c = true := by
  simp [alwaysSafe, Char.isAlphanum, h]

theorem repr_goodToken (n : Nat) : goodToken (Nat.repr n).data = true := by
  have hdata : (Nat.repr n).data = Nat.toDigitsCore 10 (n + 1) n [] := rfl
  obtain ⟨pre, hpre, hdigs⟩ := toDigitsCore_append (n + 1) n []
  apply (Bool.and_eq_true _ _).mpr
  constructor
  · rw [Bool.not_eq_true']
    apply Bool.eq_false_iff.mpr
    intro he
    exact toDigitsCore_ne_nil n (by rw [← hdata]; exact List.isEmpty_iff.mp he)
  · rw [List.all_eq_true]
    intro c hc
    rw [hdata, hpre, List.append_nil] at hc
    exact alwaysSafe_of_isDigit (hdigs c hc)

theorem toString_int_goodToken {page : Int} (h : 1 < page) :
    goodToken (toString page).data = true := by
  obtain ⟨n, rfl⟩ : ∃ n : Nat, page = (n : Int) :=
    ⟨page.toNat, (Int.toNat_of_nonneg (by omega)).symm⟩
  show goodToken (Nat.repr n).data = true
  exact repr_goodToken n
theorem isLower_toNat {c : Char} (h : c.isLower = true) : 97 ≤ c.toNat ∧ c.toNat ≤ 122 := by
  simp [Char.isLower] at h
  obtain ⟨h1, h2⟩ := h
  rw [UInt32.le_def] at h1 h2
  exact ⟨h1, h2⟩

theorem toLower_of_isLower {c : Char} (h : c.isLower = true) : Char.toLower c = c := by
  obtain ⟨h1, _⟩ := isLower_toNat h
  exact toLower_not_upper_range (by omega)

theorem schemeChar_of_isLower {c : Char} (h : c.isLower = true) : schemeChar c = true := by
  simp [schemeChar, Char.isAlpha, h]

theorem isLower_ne_colon {c : Char} (h : c.isLower = true) : c ≠ ':' := by
  intro e
  subst e
  exact absurd h (by decide)

theorem pyLower_of_isLower {l : List Char} (h : ∀ c ∈ l, c.isLower = true) : pyLower l = l := by
  unfold pyLower
  rw [List.map_congr_left fun c hc => toLower_of_isLower (h c hc)]
  exact List.map_id l

theorem mkBase_normal (scheme host path : List Char) (params : List (List Char × List Char)) :
    mkBase scheme host path params
      = scheme ++ ':' :: '/' :: '/' ::
          (host ++ (path ++ (if params = [] then [] else '?' :: joinQuery params))) := by
  unfold mkBase
  simp [List.append_assoc]

theorem urlparseF_mkBase (scheme host path : List Char) (params : List (List Char × List Char))
    (hs1 : scheme ≠ []) (hs2 : ∀ c ∈ scheme, c.isLower = true)
    (hh2 : ∀ c ∈ host, netlocChar c = true)
    (hp1 : path = [] ∨ ∃ p2, path = '/' :: p2)
    (hp2 : ∀ c ∈ path, c ≠ '?' ∧ c ≠ '#')
    (hgood : ∀ kv ∈ params, goodToken kv.1 = true ∧ goodToken kv.2 = true) :
    urlparseF (mkBase scheme host path params)
      = ⟨scheme, host, path, (if params = [] then [] else joinQuery params), []⟩ := by
  have hcolon : ∀ c ∈ scheme, c ≠ ':' := fun c hc => isLower_ne_colon (hs2 c hc)
  have hall : scheme.all schemeChar = true :=
    List.all_eq_true.mpr fun c hc => schemeChar_of_isLower (hs2 c hc)
  have hpyl : pyLower scheme = scheme := pyLower_of_isLower hs2
  have hjqh : ∀ c ∈ ('?' :: joinQuery params : List Char), c ≠ '#' := by
    intro c hc
    rcases List.mem_cons.mp hc with rfl | hc
    · decide
    · exact joinQuery_no_amp_no_hash hgood hc
  by_cases hpar : params = []
  · subst hpar
    rcases hp1 with rfl | ⟨p2, rfl⟩
    · have hmk : mkBase scheme host [] [] = scheme ++ ':' :: '/' :: '/' :: host := by
        unfold mkBase
        simp
      have hsf := @splitFirst_append ':' scheme ('/' :: '/' :: host) hcolon
      have hnet := takeWhile_all (p := netlocChar) hh2
      rw [hmk]
      simp [urlparseF, hsf, hs1, hall, hpyl, hnet.1, hnet.2, splitFirst]
    · have hmk : mkBase scheme host ('/' :: p2) []
          = scheme ++ ':' :: '/' :: '/' :: (host ++ '/' :: p2) := by
        unfold mkBase
        simp
      have hsf := @splitFirst_append ':' scheme ('/' :: '/' :: (host ++ '/' :: p2)) hcolon
      have hnet := takeWhile_append_stop (p := netlocChar) (x := '/') p2 hh2 (by decide)
      have hfrag := @splitFirst_not_mem '#' ('/' :: p2) (fun c hc => (hp2 c hc).2)
      have hq := @splitFirst_not_mem '?' ('/' :: p2) (fun c hc => (hp2 c hc).1)
      rw [hmk]
      simp [urlparseF, hsf, hs1, hall, hpyl, hnet.1, hnet.2, hfrag, hq]
  · rcases hp1 with rfl | ⟨p2, rfl⟩
    · have hmk : mkBase scheme host [] params
          = scheme ++ ':' :: '/' :: '/' :: (host ++ '?' :: joinQuery params) := by
        unfold mkBase
        simp [hpar]
      have hsf := @splitFirst_append ':' scheme
        ('/' :: '/' :: (host ++ '?' :: joinQuery params)) hcolon
      have hnet := takeWhile_append_stop (p := netlocChar) (x := '?') (joinQuery params)
        hh2 (by decide)
      have hfrag := @splitFirst_not_mem '#' ('?' :: joinQuery params) hjqh
      have hq : splitFirst '?' ('?' :: joinQuery params) = some ([], joinQuery params) := by
        have := @splitFirst_append '?' [] (joinQuery params) (by simp)
        simpa using this
      rw [hmk]
      simp [urlparseF, hsf, hs1, hall, hpyl, hnet.1, hnet.2, hfrag, hq, hpar]
    · have hmk : mkBase scheme host ('/' :: p2) params
          = scheme ++ ':' :: '/' :: '/' :: (host ++ '/' :: (p2 ++ '?' :: joinQuery params)) := by
        unfold mkBase
        simp [hpar]
      have hsf := @splitFirst_append ':' scheme
        ('/' :: '/' :: (host ++ '/' :: (p2 ++ '?' :: joinQuery params))) hcolon
      have hnet := takeWhile_append_stop (p := netlocChar) (x := '/')
        (p2 ++ '?' :: joinQuery params) hh2 (by decide)
      have hfrag : splitFirst '#' ('/' :: (p2 ++ '?' :: joinQuery params)) = none := by
        apply splitFirst_not_mem
        intro c hc
        rcases List.mem_cons.mp hc with rfl | hc
        · decide
        · rcases List.mem_append.mp hc with hc | hc
          · exact (hp2 c (List.mem_cons_of_mem '/' hc)).2
          · exact hjqh c hc
      have hq : splitFirst '?' ('/' :: (p2 ++ '?' :: joinQuery params))
          = some ('/' :: p2, joinQuery params) := by
        have := @splitFirst_append '?' ('/' :: p2) (joinQuery params)
          (fun c hc => (hp2 c hc).1)
        simpa using this
      rw [hmk]
      simp [urlparseF, hsf, hs1, hall, hpyl, hnet.1, hnet.2, hfrag, hq, hpar]

theorem urlunparseF_parts (scheme host path q : List Char)
    (hs : scheme ≠ []) (hh : host ≠ []) (hq : q ≠ [])
    (hp : path = [] ∨ ∃ p2, path = '/' :: p2) :
    urlunparseF ⟨scheme, host, path, q, []⟩
      = (scheme ++ ':' :: '/' :: '/' :: (host ++ path)) ++ '?' :: q := by
  unfold urlunparseF
  simp only []
  have hinner : (if path ≠ [] ∧ path.head? ≠ some '/' then '/' :: path else path) = path := by
    rcases hp with rfl | ⟨p2, rfl⟩
    · rw [if_neg]
      simp
    · rw [if_neg]
      simp
  rw [if_pos (Or.inl hh), hinner, if_pos hs, if_pos hq, if_neg (by simp)]
theorem scrapeLoop_error {ε : Type} (fetch : String → Except ε String)
    (parse : String → List RawRecord) (base : String) (e : ε) (k : Nat) :
    ∀ (n page : Nat) (acc : List RawRecord),
      page ≤ k → k < page + n →
      fetch (build_page_url base (k : Int)) = .error e →
      (∀ j : Nat, page ≤ j → j < k → ∃ html, fetch (build_page_url base (j : Int)) = .ok html) →
      scrapeLoop fetch parse base n page acc = .error e := by
  intro n
  induction n with
  | zero => intro page acc h1 h2 _ _; omega
  | succ m ih =>
    intro page acc h1 h2 hk hok
    by_cases hpk : page = k
    · subst hpk; simp [scrapeLoop, hk]
    · obtain ⟨html, hh⟩ := hok page le_rfl (by omega)
      simp only [scrapeLoop, hh]
      exact ih (page + 1) _ (by omega) (by omega) hk fun j hj1 hj2 => hok j (by omega) hj2

end Scraper

/-- C1: `clean_price` is absent exactly on "sur demande"/"prix sur demande"
texts (case-insensitively) and otherwise parses the concatenated digits,
absent when no digit remains; in particular `clean_price "25 000 FCFA" =
25000`, and `"Prix sur demande"`, `""`, `"gratuit"` give absent. -/
theorem C1_clean_price_spec :
    (∀ s : String, Scraper.clean_price s = Scraper.spec_clean_price s) ∧
    Scraper.clean_price "25 000 FCFA" = some 25000 ∧
    Scraper.clean_price "Prix sur demande" = none ∧
    Scraper.clean_price "" = none ∧
    Scraper.clean_price "gratuit" = none :=
  ⟨Scraper.clean_price_eq_spec, by decide, by decide, by decide, by decide⟩

/-- C9: for every base URL and page number at most 1, `build_page_url`
returns the base URL unchanged, even when it already carries a `page`
query parameter. -/
theorem C9_page_le_one_unchanged (base : String) (page : Int) (h : page ≤ 1) :
    Scraper.build_page_url base page = base := by
  simp [Scraper.build_page_url, h]

/-- Witness for C9 at page 1 on a URL that already has a `page` parameter. -/
theorem C9_page_le_one_unchanged_witness :
    (1 : Int) ≤ 1 ∧
      Scraper.build_page_url "https://sn.coinafrique.com/categorie/vetements-homme?page=5" 1
        = "https://sn.coinafrique.com/categorie/vetements-homme?page=5" :=
  ⟨by decide, C9_page_le_one_unchanged _ 1 (by decide)⟩

/-- C7: `clean_records` returns a list of the same length whose i-th
element is the cleaning of the i-th input record — nothing is dropped,
added, or reordered. -/
theorem C7_clean_records_length_order (raws : List Scraper.RawRecord) :
    (Scraper.clean_records raws).length = raws.length ∧
    ∀ i : Nat, (Scraper.clean_records raws)[i]? = raws[i]?.map Scraper.cleanRow := by
  induction raws with
  | nil => exact ⟨rfl, fun i => by simp [Scraper.clean_records]⟩
  | cons a as ih =>
    refine ⟨by simp [Scraper.clean_records, ih.1], fun i => ?_⟩
    cases i with
    | zero => simp [Scraper.clean_records]
    | succ n => simp [Scraper.clean_records, ih.2 n]

/-- Counterexample to C3: a record whose `type` field is bound to `None`
is stringified by `str(...)` to `"None"`, so cleaning yields the value
`"none"` rather than the absent marker the claim demands. -/
theorem C3_counterexample :
    (Scraper.clean_records [{ type := some Scraper.PyVal.vNone }]).map (fun r => r.type)
      = [some "none"] := by decide

/-- C3 as amended: a field MISSING from the input record is treated as the
empty string, making the corresponding output field absent; a field bound
to `None` is instead stringified to `"None"` and cleaned as that text (so
a `None` type yields the value `"none"`, not absence). -/
theorem C3_missing_field_absent (row : Scraper.RawRecord) :
    (row.type = none → (Scraper.cleanRow row).type = none) ∧
    (row.prix = none →
      (Scraper.cleanRow row).prix_brut = none ∧ (Scraper.cleanRow row).prix = none) ∧
    (row.adresse = none → (Scraper.cleanRow row).adresse = none) ∧
    (row.image_lien = none → (Scraper.cleanRow row).image_lien = none) ∧
    (row.categorie = none → (Scraper.cleanRow row).categorie = none) ∧
    (row.type = some Scraper.PyVal.vNone → (Scraper.cleanRow row).type = some "none") := by
  refine ⟨fun h => ?_, fun h => ⟨?_, ?_⟩, fun h => ?_, fun h => ?_, fun h => ?_, fun h => ?_⟩ <;>
    simp only [Scraper.cleanRow] <;> rw [h] <;> rfl

/-- Witness for the amended C3, exercising both a missing field and a
`None`-valued field. -/
theorem C3_missing_field_absent_witness :
    (Scraper.cleanRow { type := some Scraper.PyVal.vNone }).prix_brut = none ∧
    (Scraper.cleanRow { type := some Scraper.PyVal.vNone }).type = some "none" := by
  have h := C3_missing_field_absent { type := some Scraper.PyVal.vNone }
  exact ⟨(h.2.1 rfl).1, h.2.2.2.2.2 rfl⟩

/-- C10: when a cleaner-produced record has a present integer price, its
raw-price string is present and non-empty, and the price slot of the
dedup key is that string — the integer fallback never fires. -/
theorem C10_present_price_has_raw (raws : List Scraper.RawRecord) (r : Scraper.Cleaned)
    (n : Nat) (hmem : r ∈ Scraper.clean_records raws) (hp : r.prix = some n) :
    ∃ s, r.prix_brut = some s ∧ s ≠ "" ∧
      Scraper.keyPrice r.prix_brut r.prix = some (Sum.inl s) := by
  obtain ⟨row, _, rfl⟩ := Scraper.mem_clean_records hmem
  have hprix : (Scraper.cleanRow row).prix
      = Scraper.clean_price (Scraper.normalize_whitespace (Scraper.getStr row.prix)) := rfl
  have hne : Scraper.normalize_whitespace (Scraper.getStr row.prix) ≠ "" := by
    intro h0
    rw [hprix, h0] at hp
    simp [Scraper.clean_price] at hp
  have hpb : (Scraper.cleanRow row).prix_brut
      = some (Scraper.normalize_whitespace (Scraper.getStr row.prix)) := by
    simp only [Scraper.cleanRow, Scraper.strOrNone, if_neg hne]
  refine ⟨_, hpb, hne, ?_⟩
  rw [hpb]
  simp [Scraper.keyPrice, hne]

/-- Witness for C10 on a record with price text "25 000 FCFA". -/
theorem C10_present_price_has_raw_witness :
    ∃ s, (Scraper.cleanRow { prix := some (Scraper.PyVal.vStr "25 000 FCFA") }).prix_brut = some s ∧
      s ≠ "" ∧
      Scraper.keyPrice (Scraper.cleanRow { prix := some (Scraper.PyVal.vStr "25 000 FCFA") }).prix_brut
        (Scraper.cleanRow { prix := some (Scraper.PyVal.vStr "25 000 FCFA") }).prix
        = some (Sum.inl s) :=
  C10_present_price_has_raw [{ prix := some (Scraper.PyVal.vStr "25 000 FCFA") }] _ 25000
    (by simp [Scraper.clean_records]) (by decide)

/-- C2: on cleaned records (whose `prix_brut` is never the empty string)
`dedupe_records` keeps exactly the first occurrence of each five-field key
`(type, prix_brut-if-present-else-prix, adresse, image_lien, categorie)`,
preserving the survivors' order; and two records differing only in
`image_lien` are both kept. -/
theorem C2_dedupe_matches_spec :
    (∀ l : List Scraper.Cleaned, (∀ r ∈ l, r.prix_brut ≠ some "") →
      Scraper.dedupe_records l = Scraper.specDedupe l) ∧
    (∀ r s : Scraper.Cleaned, r.type = s.type → r.prix_brut = s.prix_brut →
      r.prix = s.prix → r.adresse = s.adresse → r.categorie = s.categorie →
      r.image_lien ≠ s.image_lien → Scraper.dedupe_records [r, s] = [r, s]) := by
  constructor
  · intro l hl
    exact Scraper.dedupeGo_eq_specDedupeGo l [] [] hl fun k => Iff.rfl
  · intro r s _ _ _ _ _ himg
    have hkey : Scraper.dedupKey r ≠ Scraper.dedupKey s := by
      intro hk
      exact himg (congrArg (fun k => k.2.2.2.1) hk)
    unfold Scraper.dedupe_records Scraper.dedupeGo
    rw [if_neg (by simp [Scraper.memKey])]
    unfold Scraper.dedupeGo
    rw [if_neg (by simp [Scraper.memKey, hkey])]
    rfl

/-- Witness for C2: a duplicated record collapses as the spec key says,
and a pair differing only in the image URL survives whole. -/
theorem C2_dedupe_matches_spec_witness :
    Scraper.dedupe_records
        [⟨some "habits", some "1 000 FCFA", some 1000, some "Dakar", some "http://img/1.jpg", some "vetements-homme"⟩,
         ⟨some "habits", some "1 000 FCFA", some 1000, some "Dakar", some "http://img/1.jpg", some "vetements-homme"⟩]
      = Scraper.specDedupe
        [⟨some "habits", some "1 000 FCFA", some 1000, some "Dakar", some "http://img/1.jpg", some "vetements-homme"⟩,
         ⟨some "habits", some "1 000 FCFA", some 1000, some "Dakar", some "http://img/1.jpg", some "vetements-homme"⟩] ∧
    Scraper.dedupe_records
        [⟨some "habits", some "1 000 FCFA", some 1000, some "Dakar", some "http://img/1.jpg", some "vetements-homme"⟩,
         ⟨some "habits", some "1 000 FCFA", some 1000, some "Dakar", some "http://img/2.jpg", some "vetements-homme"⟩]
      = [⟨some "habits", some "1 000 FCFA", some 1000, some "Dakar", some "http://img/1.jpg", some "vetements-homme"⟩,
         ⟨some "habits", some "1 000 FCFA", some 1000, some "Dakar", some "http://img/2.jpg", some "vetements-homme"⟩] :=
  ⟨C2_dedupe_matches_spec.1 _ (by decide),
   C2_dedupe_matches_spec.2 _ _ rfl rfl rfl rfl rfl (by decide)⟩

/-- C6: `dedupe_records` is idempotent. -/
theorem C6_dedupe_idempotent (l : List Scraper.Cleaned) :
    Scraper.dedupe_records (Scraper.dedupe_records l) = Scraper.dedupe_records l :=
  Scraper.dedupeGo_eq_self _ [] (fun _ _ => rfl) (Scraper.pairwise_keys_dedupeGo l [])

/-- C8: when fetching page k fails (the fetch oracle returns an error, as
`fetch_html` raises on non-success status or connection failure) while the
earlier pages succeed, `scrape_category` yields exactly that error: no
partial result, no retry, no skip-and-continue. -/
theorem C8_fetch_failure_aborts {ε : Type} (fetch : String → Except ε String)
    (parse : String → List Scraper.RawRecord) (base : String) (pages : Int)
    (k : Nat) (e : ε) (h1 : 1 ≤ k) (h2 : k ≤ (max 1 pages).toNat)
    (hk : fetch (Scraper.build_page_url base (k : Int)) = .error e)
    (hok : ∀ j : Nat, 1 ≤ j → j < k →
      ∃ html, fetch (Scraper.build_page_url base (j : Int)) = .ok html) :
    Scraper.scrape_category fetch parse base pages = .error e := by
  unfold Scraper.scrape_category
  exact Scraper.scrapeLoop_error fetch parse base e k _ 1 [] h1 (by omega) hk hok

/-- Witness for C8: page 2 of 2 fails, page 1 succeeds, the whole category
scrape returns the page-2 error. -/
theorem C8_fetch_failure_aborts_witness :
    Scraper.scrape_category
        (fun u => if u = "http://h?page=2" then (Except.error 7 : Except Nat String)
                  else Except.ok "html")
        (fun _ => []) "http://h" 2
      = Except.error 7 :=
  C8_fetch_failure_aborts _ _ _ 2 2 7 (by decide) (by decide) rfl
    (fun j hj1 hj2 => ⟨"html", by
      have hj : j = 1 := by omega
      subst hj
      rfl⟩)

/-- C5: every string field of a cleaner-produced record is either absent or
a non-empty fully whitespace-normalized string (never the empty string),
the `type` field additionally being a fixed point of lower-casing, and
`prix` is an integer or absent. -/
theorem C5_cleaned_fields_normalized (raws : List Scraper.RawRecord) (r : Scraper.Cleaned)
    (hmem : r ∈ Scraper.clean_records raws) :
    (∀ s, r.type = some s →
      s ≠ "" ∧ Scraper.isNormalized s.data = true ∧ Scraper.pyLowerStr s = s) ∧
    (∀ s, r.prix_brut = some s → s ≠ "" ∧ Scraper.isNormalized s.data = true) ∧
    (∀ s, r.adresse = some s → s ≠ "" ∧ Scraper.isNormalized s.data = true) ∧
    (∀ s, r.image_lien = some s → s ≠ "" ∧ Scraper.isNormalized s.data = true) ∧
    (∀ s, r.categorie = some s → s ≠ "" ∧ Scraper.isNormalized s.data = true) := by
  obtain ⟨row, _, rfl⟩ := Scraper.mem_clean_records hmem
  refine ⟨fun s hs => ?_, fun s hs => ?_, fun s hs => ?_, fun s hs => ?_, fun s hs => ?_⟩
  · exact Scraper.strOrNone_lower_normalize hs
  · exact Scraper.strOrNone_normalize hs
  · exact Scraper.strOrNone_normalize hs
  · exact Scraper.strOrNone_normalize hs
  · exact Scraper.strOrNone_normalize hs

/-- Witness for C5 on a record whose type text is "  HaBits  ". -/
theorem C5_cleaned_fields_normalized_witness :
    "habits" ≠ "" ∧ Scraper.isNormalized "habits".data = true ∧
      Scraper.pyLowerStr "habits" = "habits" :=
  (C5_cleaned_fields_normalized [{ type := some (Scraper.PyVal.vStr "  HaBits  ") }]
      (Scraper.cleanRow { type := some (Scraper.PyVal.vStr "  HaBits  ") })
      (by simp [Scraper.clean_records])).1 "habits" (by decide)

/-- Counterexample to C4: for a base URL with a duplicated query key,
`dict(parse_qsl(...))` keeps only the last occurrence, so the query
parameter `a=1` of the input is NOT preserved in the output. -/
theorem C4_counterexample :
    Scraper.build_page_url "http://h/p?a=1&a=2" 2 = "http://h/p?a=2&page=2" ∧
    Scraper.parse_qsl (Scraper.urlparseF "http://h/p?a=1&a=2".data).query
      = [("a".data, "1".data), ("a".data, "2".data)] ∧
    Scraper.parse_qsl
        (Scraper.urlparseF (Scraper.build_page_url "http://h/p?a=1&a=2" 2).data).query
      = [("a".data, "2".data), ("page".data, "2".data)] := by
  refine ⟨?_, ?_, ?_⟩ <;> decide

/-- C4 as amended: for page > 1 and a well-formed base URL
`scheme://host/path?k1=v1&...&kn=vn` whose query keys are distinct and
whose keys and values are non-empty strings of unreserved characters,
`build_page_url` keeps scheme, host, path and all parameters in order and
sets/overwrites the `page` key to the stringified page number (appended at
the end when absent).  Query parameters with blank values or duplicated
keys are NOT preserved in general (blank values are dropped, only the last
occurrence of a duplicate key survives), as the counterexample shows. -/
theorem C4_page_param_set (scheme host path : List Char)
    (params : List (List Char × List Char)) (page : Int)
    (hpage : 1 < page)
    (hs1 : scheme ≠ []) (hs2 : ∀ c ∈ scheme, c.isLower = true)
    (hh1 : host ≠ []) (hh2 : ∀ c ∈ host, Scraper.netlocChar c = true)
    (hp1 : path = [] ∨ ∃ p2, path = '/' :: p2)
    (hp2 : ∀ c ∈ path, c ≠ '?' ∧ c ≠ '#')
    (hnd : params.Pairwise (fun a b => a.1 ≠ b.1))
    (hgood : ∀ kv ∈ params, Scraper.goodToken kv.1 = true ∧ Scraper.goodToken kv.2 = true) :
    Scraper.build_page_url ⟨Scraper.mkBase scheme host path params⟩ page
      = ⟨Scraper.mkBase scheme host path
          (Scraper.dictUpdate params "page".data (toString page).data)⟩ := by
  have hvgood : Scraper.goodToken (toString page).data = true :=
    Scraper.toString_int_goodToken hpage
  have hd2good : ∀ kv ∈ Scraper.dictUpdate params "page".data (toString page).data,
      Scraper.goodToken kv.1 = true ∧ Scraper.goodToken kv.2 = true := by
    intro kv hkv
    rcases Scraper.mem_dictUpdate hkv with h | rfl
    · exact hgood kv h
    · exact ⟨(by decide : Scraper.goodToken "page".data = true), hvgood⟩
  have hd2ne : Scraper.dictUpdate params "page".data (toString page).data ≠ [] :=
    Scraper.dictUpdate_ne_nil
  have hjne : Scraper.joinQuery (Scraper.dictUpdate params "page".data (toString page).data) ≠ [] := by
    cases hd : Scraper.dictUpdate params "page".data (toString page).data with
    | nil => exact absurd hd hd2ne
    | cons kv rest => exact Scraper.joinQuery_cons_ne_nil
  have hquery : Scraper.dictOf (Scraper.parse_qsl
      (if params = [] then [] else Scraper.joinQuery params)) = params := by
    by_cases hpar : params = []
    · subst hpar; rfl
    · rw [if_neg hpar, Scraper.parse_qsl_join hgood, Scraper.dictOf_self hnd]
  unfold Scraper.build_page_url
  rw [if_neg (by omega)]
  show (⟨Scraper.urlunparseF _⟩ : String) = _
  rw [show (⟨Scraper.mkBase scheme host path params⟩ : String).data
      = Scraper.mkBase scheme host path params from rfl]
  rw [Scraper.urlparseF_mkBase scheme host path params hs1 hs2 hh2 hp1 hp2 hgood]
  show (⟨Scraper.urlunparseF ⟨scheme, host, path,
      Scraper.urlencodeF (Scraper.dictUpdate (Scraper.dictOf (Scraper.parse_qsl
        (if params = [] then [] else Scraper.joinQuery params)))
        "page".data (toString page).data), []⟩⟩ : String) = _
  rw [hquery, Scraper.urlencodeF_eq_joinQuery hd2good,
    Scraper.urlunparseF_parts scheme host path _ hs1 hh1 hjne hp1]
  refine congrArg String.mk ?_
  unfold Scraper.mkBase
  rw [if_neg hd2ne]
  simp [List.append_assoc]

/-- Witness for the amended C4 on a coinafrique-style URL with one
existing query parameter, at page 2. -/
theorem C4_page_param_set_witness :
    Scraper.build_page_url
        ⟨Scraper.mkBase "https".data "sn.coinafrique.com".data
          "/categorie/vetements-homme".data [("tri".data, "recent".data)]⟩ 2
      = ⟨Scraper.mkBase "https".data "sn.coinafrique.com".data
          "/categorie/vetements-homme".data
          (Scraper.dictUpdate [("tri".data, "recent".data)] "page".data
            (toString (2 : Int)).data)⟩ :=
  C4_page_param_set "https".data "sn.coinafrique.com".data
    "/categorie/vetements-homme".data [("tri".data, "recent".data)] 2
    (by decide) (by decide) (by decide) (by decide) (by decide)
    (Or.inr ⟨"categorie/vetements-homme".data, rfl⟩) (by decide)
    (by simp) (by decide)
